import Mathlib

/-!
Shallow embedding of the data pipeline of `app.py` (MEIs por município,
Dados Abertos CNPJ/RFB): the remote catalog resolver `rfb_latest_folder`,
the zip CSV extractor `_concat_csvs_from_zip`, the dedup-and-left-join
classification (`simples_last`, `out`), the aggregation `resumo`, and the
top-N CNAE breakdown `top`.

Modelling conventions:
* pandas DataFrames are lists of typed rows; column selection is structure
  projection.
* machine strings are Lean `String`; the Python string primitives used by
  the code (`zfill`, `upper`, `lower`, `strip`, `startswith`, `endswith`,
  `os.path.basename`, lexicographic comparison on code points) are
  re-implemented structurally over the character list so that concrete
  instances evaluate inside the kernel.
* sorts (`sort_values`, Python `list.sort`, `value_counts`) are modelled by
  the stable `List.insertionSort`; only the relative order of rows whose
  complete sort key is equal depends on the sorting algorithm.  pandas'
  default sort kind is the unstable quicksort, so that tie order is
  unspecified in the program, and no theorem below asserts anything about
  it; Python's `list.sort` (used by the resolver) is genuinely stable.
* float arithmetic of `round(…, 4)` is modelled exactly on `ℚ` with
  Python's round-half-to-even tie rule.
* exceptions (`RuntimeError` of the resolver and extractor, `st.stop()`)
  become `Except` error values.
-/

namespace MeiQuixera

/-- Python `str.zfill w`: left-pad with `'0'` up to width `w`
(app.py lines 198-203; sign handling is irrelevant for digit data). -/
def zfill (w : Nat) (s : String) : String :=
  String.mk (List.replicate (w - s.data.length) '0' ++ s.data)

/-- Character-wise upper-casing, modelling Python `str.upper` and pandas
`.str.upper()` on the ASCII data the pipeline handles. -/
def strUpper (s : String) : String :=
  String.mk (s.data.map Char.toUpper)

/-- Character-wise lower-casing, modelling Python `str.lower`. -/
def strLower (s : String) : String :=
  String.mk (s.data.map Char.toLower)

/-- Lexicographic order on code points, the comparison Python uses for
`str`; structural so that the kernel can evaluate it. -/
def listLE : List Char → List Char → Bool
  | [], _ => true
  | _ :: _, [] => false
  | a :: as, b :: bs =>
    if a.toNat < b.toNat then true
    else if b.toNat < a.toNat then false
    else listLE as bs

/-- Python string `<=`. -/
def strLE (s t : String) : Bool := listLE s.data t.data

/-- Python `str.endswith`. -/
def strEndsWith (s suf : String) : Bool := suf.data.isSuffixOf s.data

/-- Python `str.startswith`. -/
def strStartsWith (s pre : String) : Bool := pre.data.isPrefixOf s.data

/-- Python `os.path.basename`: the part after the last `'/'`. -/
def basename (s : String) : String :=
  String.mk ((s.data.reverse.takeWhile (fun c => c != '/')).reverse)

/-- Keep the first row of each key group, scanning left to right: the
model of pandas `drop_duplicates(subset=[key], keep="first")`.  `seen`
accumulates the keys already emitted. -/
def dropDupFirstAux (key : α → κ) [DecidableEq κ] (seen : List κ) : List α → List α
  | [] => []
  | x :: xs =>
    if key x ∈ seen then dropDupFirstAux key seen xs
    else x :: dropDupFirstAux key (key x :: seen) xs

/-- pandas `drop_duplicates(subset=[key], keep="first")`. -/
def dropDupFirst (key : α → κ) [DecidableEq κ] (l : List α) : List α :=
  dropDupFirstAux key [] l

/-! ### Remote catalog resolver (app.py lines 72-87) -/

/-- Model of `re.match(r"(\d{4}-\d{2})/?$", href)` from app.py line 81:
the whole href must be four digits, a dash, two digits, optionally a
trailing slash; the captured `YYYY-MM` group is returned. -/
def matchMonthDir (href : String) : Option String :=
  match href.data with
  | [y1, y2, y3, y4, h, m1, m2] =>
    if y1.isDigit && y2.isDigit && y3.isDigit && y4.isDigit && h == '-'
        && m1.isDigit && m2.isDigit then
      some (String.mk [y1, y2, y3, y4, h, m1, m2])
    else none
  | [y1, y2, y3, y4, h, m1, m2, sl] =>
    if y1.isDigit && y2.isDigit && y3.isDigit && y4.isDigit && h == '-'
        && m1.isDigit && m2.isDigit && sl == '/' then
      some (String.mk [y1, y2, y3, y4, h, m1, m2])
    else none
  | _ => none

/-- Numeric value of an ASCII digit. -/
def digitVal (c : Char) : Nat := c.toNat - 48

/-- Model of `dateutil.parser.parse (s + "-01")` on a matched `YYYY-MM`
label (app.py line 84), returning (year, month, day).  dateutil accepts
months `01`-`12` directly; a middle number `13`-`31` is reinterpreted as
the day of January (dateutil swaps month and day when the month slot
exceeds 12); month `00` or above `31`, and year `0000`, raise. -/
def dtparseMonthDir (s : String) : Option (Nat × Nat × Nat) :=
  match s.data with
  | [y1, y2, y3, y4, _, m1, m2] =>
    let y := digitVal y1 * 1000 + digitVal y2 * 100 + digitVal y3 * 10 + digitVal y4
    let m := digitVal m1 * 10 + digitVal m2
    if y = 0 then none
    else if 1 ≤ m ∧ m ≤ 12 then some (y, m, 1)
    else if 13 ≤ m ∧ m ≤ 31 then some (y, 1, m)
    else none
  | _ => none

/-- Lexicographic comparison of (year, month, day) sort keys. -/
def dateLE (a b : Nat × Nat × Nat) : Bool :=
  decide (a.1 < b.1) ||
    (decide (a.1 = b.1) &&
      (decide (a.2.1 < b.2.1) ||
        (decide (a.2.1 = b.2.1) && decide (a.2.2 ≤ b.2.2))))

/-- Order on keyed folder labels used by `folders.sort(key=...)`. -/
def folderKeyRel (a b : (Nat × Nat × Nat) × String) : Prop := dateLE a.1 b.1 = true

instance folderKeyRelDecidable : DecidableRel folderKeyRel :=
  fun _ _ => inferInstanceAs (Decidable (_ = true))

/-- Evaluate the sort key of every matched folder label; `none` when any
key raises, as Python's `list.sort(key=...)` aborts on the first failing
key. -/
def keyFolders : List String → Option (List ((Nat × Nat × Nat) × String))
  | [] => some []
  | s :: rest =>
    match dtparseMonthDir s with
    | none => none
    | some d => (keyFolders rest).map (fun ks => (d, s) :: ks)

/-- Failure modes of the resolver: `notFound` models the
`RuntimeError("Não foi possível localizar pastas mensais...")` raised when
no href matches, `parseFailure` the exception escaping from the
`dateutil` sort key. -/
inductive RfbError where
  | notFound
  | parseFailure
deriving DecidableEq

/-- Model of `rfb_latest_folder` (app.py lines 72-87): collect the hrefs
matching the `YYYY-MM` pattern, sort them by parsed date (Python
`list.sort` is stable, hence the stable `insertionSort`), fail when the
list is empty, and return the last element. -/
def rfb_latest_folder (hrefs : List String) : Except RfbError String :=
  match keyFolders (hrefs.filterMap matchMonthDir) with
  | none => .error .parseFailure
  | some keyed =>
    match (List.insertionSort folderKeyRel keyed).getLast? with
    | none => .error .notFound
    | some last => .ok last.2

/-! ### Tabular extractor (app.py lines 107-132) -/

/-- One member of a downloaded zip archive: its path inside the archive
and the rows its CSV content parses to (the chunked `read_csv` concatenation
is row-level identity, so the parsed rows are carried directly). -/
structure ZipEntry (ρ : Type) where
  filename : String
  rows : List ρ
deriving DecidableEq

/-- Member selection, first step (app.py line 111): the filename must end
in `.csv`, case-insensitively. -/
def isCsvMember (m : ZipEntry ρ) : Bool :=
  strEndsWith (strLower m.filename) ".csv"

/-- Member selection, second step (app.py lines 113-116): the lower-cased
base filename must start with one of the wanted name stems. -/
def matchesWanted (wanted_stems : List String) (m : ZipEntry ρ) : Bool :=
  wanted_stems.any (fun p => strStartsWith (strLower (basename m.filename)) p)

/-- Pipeline failure modes: `extractionFailure` models the
`RuntimeError(f"Nenhum CSV com prefixos {wanted_prefixes} no ZIP.")` of
app.py line 119, carrying the name stems the message cites; `emptyCut`
models the `st.stop()` of line 209 when the municipality cut is empty. -/
inductive PipeError where
  | extractionFailure (wanted_stems : List String)
  | emptyCut
deriving DecidableEq

/-- Model of `_concat_csvs_from_zip` (app.py lines 107-132): pick the
`.csv` members whose base name starts with a wanted stem, fail when none
matched, otherwise concatenate all their rows in member order. -/
def concat_csvs_from_zip (entries : List (ZipEntry ρ)) (wanted_stems : List String) :
    Except PipeError (List ρ) :=
  let members := entries.filter isCsvMember
  let picked := members.filter (matchesWanted wanted_stems)
  if picked.isEmpty then .error (.extractionFailure wanted_stems)
  else .ok (picked.flatMap ZipEntry.rows)

/-! ### Join & classify (app.py lines 185-228) -/

/-- Row of the `estabelecimentos` table as extracted (columns used by the
pipeline; `cnae_fiscal_principal` is optional because the column may hold
missing values). -/
structure EstabRaw where
  cnpj_basico : String
  cnpj_ordem : String
  cnpj_dv : String
  municipio : String
  uf : String
  cnae_fiscal_principal : Option String
deriving DecidableEq

/-- Row of `estabelecimentos` after the preparation of app.py lines
198-203: the canonical `cnpj_completo` is assigned and `municipio` is
zero-filled to 7 digits. -/
structure EstabRow where
  cnpj_basico : String
  cnpj_ordem : String
  cnpj_dv : String
  cnpj_completo : String
  municipio : String
  uf : String
  cnae_fiscal_principal : Option String
deriving DecidableEq

/-- Column preparation of app.py lines 198-203. -/
def prepareEstab (r : EstabRaw) : EstabRow :=
  { cnpj_basico := r.cnpj_basico
    cnpj_ordem := r.cnpj_ordem
    cnpj_dv := r.cnpj_dv
    cnpj_completo := String.mk ((zfill 8 r.cnpj_basico).data ++ (zfill 4 r.cnpj_ordem).data
      ++ (zfill 2 r.cnpj_dv).data)
    municipio := zfill 7 r.municipio
    uf := r.uf
    cnae_fiscal_principal := r.cnae_fiscal_principal }

/-- Municipality cut of app.py line 204. -/
def mask (municipio_ibge uf : String) (r : EstabRow) : Bool :=
  decide (r.municipio = zfill 7 municipio_ibge) && decide (strUpper r.uf = strUpper uf)

/-- The filtered primary table `estab_mun` of app.py lines 198-205. -/
def estab_mun (estab : List EstabRaw) (municipio_ibge uf : String) : List EstabRow :=
  (estab.map prepareEstab).filter (mask municipio_ibge uf)

/-- Row of the `simples` table (columns selected at app.py line 217). -/
structure SimplesRaw where
  cnpj_basico : String
  opcao_pelo_mei : String
  data_opcao_mei : String
  data_exclusao_mei : String
deriving DecidableEq

/-- Row of `simples` after the `assign(is_mei=...)` of app.py line 218. -/
structure SimplesRow where
  cnpj_basico : String
  opcao_pelo_mei : String
  data_opcao_mei : String
  data_exclusao_mei : String
  is_mei : Bool
deriving DecidableEq

/-- Flag normalization of app.py line 218:
`d["opcao_pelo_mei"].str.upper().eq("S")`. -/
def assignIsMei (r : SimplesRaw) : SimplesRow :=
  { cnpj_basico := r.cnpj_basico
    opcao_pelo_mei := r.opcao_pelo_mei
    data_opcao_mei := r.data_opcao_mei
    data_exclusao_mei := r.data_exclusao_mei
    is_mei := decide (strUpper r.opcao_pelo_mei = "S") }

/-- Column selection applied when `simples_last` is re-run on its own
output (app.py line 217 selects exactly these four columns). -/
def selectSimplesCols (r : SimplesRow) : SimplesRaw :=
  ⟨r.cnpj_basico, r.opcao_pelo_mei, r.data_opcao_mei, r.data_exclusao_mei⟩

/-- Comparator of `sort_values(["cnpj_basico", "is_mei", "data_opcao_mei"],
ascending=[True, False, False])` (app.py line 219): base identifier
ascending, then flag descending (`true` first), then opt-in date
descending. -/
def simplesLE (a b : SimplesRow) : Bool :=
  if a.cnpj_basico = b.cnpj_basico then
    if a.is_mei = b.is_mei then strLE b.data_opcao_mei a.data_opcao_mei
    else a.is_mei
  else strLE a.cnpj_basico b.cnpj_basico

/-- The sort order of `simples_last` as a relation. -/
def simplesRel (a b : SimplesRow) : Prop := simplesLE a b = true

instance simplesRelDecidable : DecidableRel simplesRel :=
  fun _ _ => inferInstanceAs (Decidable (_ = true))

/-- Model of `simples_last` (app.py lines 216-221): normalize the flag,
sort, and keep the first row per `cnpj_basico`. -/
def simples_last (simples : List SimplesRaw) : List SimplesRow :=
  dropDupFirst (fun r => r.cnpj_basico)
    (List.insertionSort simplesRel (simples.map assignIsMei))

/-- Row of the merged table before `fillna`: the right-hand columns are
optional because a primary row may have no match. -/
structure MergedRow where
  e : EstabRow
  is_mei : Option Bool
  data_opcao_mei : Option String
  data_exclusao_mei : Option String
deriving DecidableEq

/-- Row of `out` after `out["is_mei"].fillna(False)` (app.py line 228). -/
structure OutRow where
  e : EstabRow
  is_mei : Bool
  data_opcao_mei : Option String
  data_exclusao_mei : Option String
deriving DecidableEq

/-- Contribution of one left row to the left merge of app.py lines
223-227: every matching right row produces an output row, and a left row
without matches survives with null right-hand columns. -/
def mergeOne (right : List SimplesRow) (l : EstabRow) : List MergedRow :=
  let ms := right.filter (fun r => decide (r.cnpj_basico = l.cnpj_basico))
  if ms.isEmpty then [⟨l, none, none, none⟩]
  else ms.map (fun r => ⟨l, some r.is_mei, some r.data_opcao_mei, some r.data_exclusao_mei⟩)

/-- pandas `merge(..., on="cnpj_basico", how="left")`, preserving left
order. -/
def mergeLeft (left : List EstabRow) (right : List SimplesRow) : List MergedRow :=
  left.flatMap (mergeOne right)

/-- `out["is_mei"] = out["is_mei"].fillna(False)` (app.py line 228). -/
def fillnaRow (m : MergedRow) : OutRow :=
  ⟨m.e, m.is_mei.getD false, m.data_opcao_mei, m.data_exclusao_mei⟩

/-- The joined-and-classified table built from an already filtered primary
table (app.py lines 216-228). -/
def joinClassify (left : List EstabRow) (simples : List SimplesRaw) : List OutRow :=
  (mergeLeft left (simples_last simples)).map fillnaRow

/-- The `out` table of app.py line 223: prepare and filter the primary
table, then left-join the deduplicated secondary table. -/
def outTable (estab : List EstabRaw) (simples : List SimplesRaw)
    (municipio_ibge uf : String) : List OutRow :=
  joinClassify (estab_mun estab municipio_ibge uf) simples

/-! ### Aggregator (app.py lines 230-234 and 272-279) -/

/-- Python `round` to an integer: round half to even. -/
def pyRoundInt (q : ℚ) : ℤ :=
  let f := ⌊q⌋
  if q - f < 1/2 then f
  else if 1/2 < q - f then f + 1
  else if f % 2 = 0 then f else f + 1

/-- `round(x, 4)` modelled exactly on rationals. -/
def pyRound4 (q : ℚ) : ℚ := (pyRoundInt (q * 10000) : ℚ) / 10000

/-- One row of the `resumo` table of app.py lines 230-234. -/
structure ResumoRow where
  municipio : String
  uf : String
  total_estab : Nat
  total_mei : Nat
  perc_mei : ℚ
deriving DecidableEq

instance : Inhabited ResumoRow := ⟨⟨"", "", 0, 0, 0⟩⟩

/-- The rows of one `groupby(["municipio", "uf"])` group. -/
def groupRows (out : List OutRow) (k : String × String) : List OutRow :=
  out.filter (fun r => decide ((r.e.municipio, r.e.uf) = k))

/-- `total_estab=("cnpj_completo", "nunique")` for one group. -/
def nuniqueEstab (out : List OutRow) (k : String × String) : Nat :=
  (dropDupFirst id ((groupRows out k).map (fun r => r.e.cnpj_completo))).length

/-- `total_mei=("is_mei", "sum")` for one group: a boolean sum counts the
`True` entries. -/
def sumIsMei (out : List OutRow) (k : String × String) : Nat :=
  (groupRows out k).countP (fun r => r.is_mei)

/-- One aggregated row, including
`resumo["perc_mei"] = (resumo["total_mei"] / resumo["total_estab"]).round(4)`. -/
def resumoRow (out : List OutRow) (k : String × String) : ResumoRow :=
  ⟨k.1, k.2, nuniqueEstab out k, sumIsMei out k,
    pyRound4 ((sumIsMei out k : ℚ) / (nuniqueEstab out k : ℚ))⟩

/-- Order on group keys: pandas `groupby` sorts the keys ascending. -/
def groupKeyLE (a b : String × String) : Bool :=
  if a.1 = b.1 then strLE a.2 b.2 else strLE a.1 b.1

/-- The group-key order as a relation. -/
def groupKeyRel (a b : String × String) : Prop := groupKeyLE a b = true

instance groupKeyRelDecidable : DecidableRel groupKeyRel :=
  fun _ _ => inferInstanceAs (Decidable (_ = true))

/-- Model of `resumo` (app.py lines 230-234): group `out` by
(municipio, uf), count distinct canonical identifiers and sum the flag,
and derive the rounded ratio. -/
def resumo (out : List OutRow) : List ResumoRow :=
  (List.insertionSort groupKeyRel
      (dropDupFirst id (out.map (fun r => (r.e.municipio, r.e.uf))))).map (resumoRow out)

/-- Count order, descending, used by `value_counts()`. -/
def countDescRel (a b : String × Nat) : Prop := b.2 ≤ a.2

instance countDescRelDecidable : DecidableRel countDescRel :=
  fun _ _ => inferInstanceAs (Decidable (_ ≤ _))

/-- Count order, ascending, used by the final `.sort_values()`. -/
def countAscRel (a b : String × Nat) : Prop := a.2 ≤ b.2

instance countAscRelDecidable : DecidableRel countAscRel :=
  fun _ _ => inferInstanceAs (Decidable (_ ≤ _))

/-- The run triggered by the button, from extracted zip bytes to the
summary table: extract both tables (aborting with the extractor's error
when no member matches), cut to the municipality (aborting like the
`st.stop()` of line 209 when the cut is empty), join and aggregate. -/
def runPipeline (estabZip : List (ZipEntry EstabRaw)) (simplesZip : List (ZipEntry SimplesRaw))
    (municipio_ibge uf : String) : Except PipeError (List ResumoRow) :=
  match concat_csvs_from_zip estabZip ["estabelec"] with
  | .error e => .error e
  | .ok estab =>
    match concat_csvs_from_zip simplesZip ["simples"] with
    | .error e => .error e
    | .ok simples =>
      let em := estab_mun estab municipio_ibge uf
      if em.isEmpty then .error .emptyCut
      else .ok (resumo (joinClassify em simples))

/-! ### Order lemmas for the code-point comparison -/

theorem listLE_refl (l : List Char) : listLE l l = true := by
  induction l with
  | nil => rfl
  | cons a as ih => simp [listLE, ih]

theorem listLE_total (a b : List Char) : listLE a b = true ∨ listLE b a = true := by
  induction a generalizing b with
  | nil => exact Or.inl rfl
  | cons x xs ih =>
    cases b with
    | nil => exact Or.inr rfl
    | cons y ys =>
      rcases Nat.lt_trichotomy x.toNat y.toNat with h | h | h
      · exact Or.inl (by simp [listLE, h])
      · have hx : ¬ x.toNat < y.toNat := by omega
        have hy : ¬ y.toNat < x.toNat := by omega
        rcases ih ys with h' | h'
        · exact Or.inl (by simp [listLE, hx, hy, h'])
        · exact Or.inr (by simp [listLE, hx, hy, h'])
      · exact Or.inr (by simp [listLE, h])

theorem listLE_trans {a b c : List Char} (h₁ : listLE a b = true) (h₂ : listLE b c = true) :
    listLE a c = true := by
  induction a generalizing b c with
  | nil => rfl
  | cons x xs ih =>
    cases b with
    | nil => simp [listLE] at h₁
    | cons y ys =>
      cases c with
      | nil => simp [listLE] at h₂
      | cons z zs =>
        simp only [listLE] at h₁ h₂ ⊢
        rcases Nat.lt_trichotomy x.toNat y.toNat with hxy | hxy | hxy
        · rcases Nat.lt_trichotomy y.toNat z.toNat with hyz | hyz | hyz
          · simp [show x.toNat < z.toNat by omega]
          · simp [show x.toNat < z.toNat by omega]
          · simp [hyz, show ¬ y.toNat < z.toNat by omega] at h₂
        · rcases Nat.lt_trichotomy y.toNat z.toNat with hyz | hyz | hyz
          · simp [show x.toNat < z.toNat by omega]
          · have hxz : ¬ x.toNat < z.toNat := by omega
            have hzx : ¬ z.toNat < x.toNat := by omega
            simp only [show ¬ x.toNat < y.toNat by omega, show ¬ y.toNat < x.toNat by omega,
              if_neg, ite_false, if_false] at h₁
            simp only [show ¬ y.toNat < z.toNat by omega, show ¬ z.toNat < y.toNat by omega,
              if_neg, ite_false, if_false] at h₂
            simp [hxz, hzx, ih h₁ h₂]
          · simp [hyz, show ¬ y.toNat < z.toNat by omega] at h₂
        · simp [hxy, show ¬ x.toNat < y.toNat by omega] at h₁

theorem listLE_antisymm {a b : List Char} (h₁ : listLE a b = true) (h₂ : listLE b a = true) :
    a = b := by
  induction a generalizing b with
  | nil =>
    cases b with
    | nil => rfl
    | cons y ys => simp [listLE] at h₂
  | cons x xs ih =>
    cases b with
    | nil => simp [listLE] at h₁
    | cons y ys =>
      simp only [listLE] at h₁ h₂
      rcases Nat.lt_trichotomy x.toNat y.toNat with hxy | hxy | hxy
      · simp [hxy, show ¬ y.toNat < x.toNat by omega] at h₂
      · have hx : ¬ x.toNat < y.toNat := by omega
        have hy : ¬ y.toNat < x.toNat := by omega
        simp only [hx, hy, if_neg, ite_false, if_false] at h₁ h₂
        have hchar : x = y := Char.eq_of_val_eq (UInt32.ext hxy)
        rw [hchar, ih h₁ h₂]
      · simp [hxy, show ¬ x.toNat < y.toNat by omega] at h₁

theorem strLE_refl (s : String) : strLE s s = true := listLE_refl s.data

theorem strLE_total (s t : String) : strLE s t = true ∨ strLE t s = true :=
  listLE_total s.data t.data

theorem strLE_trans {s t u : String} (h₁ : strLE s t = true) (h₂ : strLE t u = true) :
    strLE s u = true := listLE_trans h₁ h₂

theorem strLE_antisymm {s t : String} (h₁ : strLE s t = true) (h₂ : strLE t s = true) :
    s = t := String.ext (listLE_antisymm h₁ h₂)

/-! ### Lemmas about keep-first deduplication -/

theorem dropDupFirstAux_sublist (key : α → κ) [DecidableEq κ] (seen : List κ) (l : List α) :
    (dropDupFirstAux key seen l).Sublist l := by
  induction l generalizing seen with
  | nil => exact List.Sublist.refl _
  | cons x xs ih =>
    by_cases h : key x ∈ seen
    · simpa [dropDupFirstAux, h] using (ih seen).trans (List.sublist_cons_self x xs)
    · simpa [dropDupFirstAux, h] using (ih (key x :: seen)).cons₂ x

theorem mem_of_mem_dropDupFirstAux {key : α → κ} [DecidableEq κ] {seen : List κ} {l : List α}
    {x : α} (h : x ∈ dropDupFirstAux key seen l) : x ∈ l :=
  (dropDupFirstAux_sublist key seen l).mem h

theorem key_not_seen_of_mem_dropDupFirstAux {key : α → κ} [DecidableEq κ] {seen : List κ}
    {l : List α} {x : α} (h : x ∈ dropDupFirstAux key seen l) : key x ∉ seen := by
  induction l generalizing seen with
  | nil => simp [dropDupFirstAux] at h
  | cons y ys ih =>
    by_cases hy : key y ∈ seen
    · exact ih (by simpa [dropDupFirstAux, hy] using h)
    · rcases (by simpa [dropDupFirstAux, hy] using h : x = y ∨ x ∈ dropDupFirstAux key (key y :: seen) ys) with rfl | hx
      · exact hy
      · have := ih hx
        intro hc
        exact this (List.mem_cons_of_mem _ hc)

theorem nodup_keys_dropDupFirstAux (key : α → κ) [DecidableEq κ] (seen : List κ) (l : List α) :
    ((dropDupFirstAux key seen l).map key).Nodup := by
  induction l generalizing seen with
  | nil => simp [dropDupFirstAux]
  | cons x xs ih =>
    by_cases h : key x ∈ seen
    · simpa [dropDupFirstAux, h] using ih seen
    · simp only [dropDupFirstAux, h, if_neg, ite_false, if_false, List.map_cons, List.nodup_cons]
      refine ⟨?_, ih (key x :: seen)⟩
      intro hc
      rcases List.mem_map.mp hc with ⟨z, hz, hkz⟩
      exact key_not_seen_of_mem_dropDupFirstAux hz (by simp [hkz])

theorem dropDupFirstAux_eq_self {key : α → κ} [DecidableEq κ] {l : List α} {seen : List κ}
    (h : (l.map key).Nodup) (hs : ∀ x ∈ l, key x ∉ seen) :
    dropDupFirstAux key seen l = l := by
  induction l generalizing seen with
  | nil => rfl
  | cons x xs ih =>
    have hx : key x ∉ seen := hs x (List.mem_cons_self x xs)
    simp only [dropDupFirstAux, hx, if_neg, ite_false, if_false]
    rw [ih (by simpa using h.of_cons)]
    intro y hy
    simp only [List.mem_cons, not_or]
    constructor
    · intro hc
      simp [List.nodup_cons] at h
      exact h.1 _ hy hc
    · exact hs y (List.mem_cons_of_mem x hy)

theorem dropDupFirst_sublist (key : α → κ) [DecidableEq κ] (l : List α) :
    (dropDupFirst key l).Sublist l := dropDupFirstAux_sublist key [] l

theorem nodup_keys_dropDupFirst (key : α → κ) [DecidableEq κ] (l : List α) :
    ((dropDupFirst key l).map key).Nodup := nodup_keys_dropDupFirstAux key [] l

theorem dropDupFirst_eq_self {key : α → κ} [DecidableEq κ] {l : List α}
    (h : (l.map key).Nodup) : dropDupFirst key l = l :=
  dropDupFirstAux_eq_self h (by simp)

theorem dropDupFirst_id_eq_self {l : List α} [DecidableEq α] (h : l.Nodup) :
    dropDupFirst id l = l :=
  dropDupFirst_eq_self (by simpa using h)

/-! ### The secondary-table sort order is total and transitive -/

instance simplesRelTotal : IsTotal SimplesRow simplesRel := by
  constructor
  intro a b
  unfold simplesRel simplesLE
  by_cases hk : a.cnpj_basico = b.cnpj_basico
  · rw [if_pos hk, if_pos hk.symm]
    by_cases hf : a.is_mei = b.is_mei
    · rw [if_pos hf, if_pos hf.symm]
      exact strLE_total _ _
    · rw [if_neg hf, if_neg (fun h => hf h.symm)]
      cases ha : a.is_mei
      · cases hb : b.is_mei
        · exact absurd (ha.trans hb.symm) hf
        · exact Or.inr rfl
      · exact Or.inl rfl
  · rw [if_neg hk, if_neg (fun h => hk h.symm)]
    exact strLE_total _ _

instance simplesRelTrans : IsTrans SimplesRow simplesRel := by
  constructor
  intro a b c hab hbc
  unfold simplesRel simplesLE at *
  by_cases h₁ : a.cnpj_basico = b.cnpj_basico
  · by_cases h₂ : b.cnpj_basico = c.cnpj_basico
    · rw [if_pos h₁] at hab
      rw [if_pos h₂] at hbc
      rw [if_pos (h₁.trans h₂)]
      by_cases f₁ : a.is_mei = b.is_mei
      · by_cases f₂ : b.is_mei = c.is_mei
        · rw [if_pos f₁] at hab
          rw [if_pos f₂] at hbc
          rw [if_pos (f₁.trans f₂)]
          exact strLE_trans hbc hab
        · rw [if_neg f₂] at hbc
          rw [if_pos f₁] at hab
          have hfc : a.is_mei ≠ c.is_mei := by rw [f₁]; exact f₂
          rw [if_neg hfc, f₁]
          exact hbc
      · rw [if_neg f₁] at hab
        by_cases f₂ : b.is_mei = c.is_mei
        · have hfc : a.is_mei ≠ c.is_mei := by rw [← f₂]; exact f₁
          rw [if_neg hfc]
          exact hab
        · rw [if_neg f₂] at hbc
          exact absurd (hab.trans hbc.symm) f₁
    · rw [if_neg h₂] at hbc
      have hac : a.cnpj_basico ≠ c.cnpj_basico := by rw [h₁]; exact h₂
      rw [if_neg hac, h₁]
      exact hbc
  · by_cases h₂ : b.cnpj_basico = c.cnpj_basico
    · rw [if_neg h₁] at hab
      have hac : a.cnpj_basico ≠ c.cnpj_basico := by rw [← h₂]; exact h₁
      rw [if_neg hac, ← h₂]
      exact hab
    · rw [if_neg h₁] at hab
      rw [if_neg h₂] at hbc
      by_cases hac : a.cnpj_basico = c.cnpj_basico
      · have : a.cnpj_basico = b.cnpj_basico := by
          refine strLE_antisymm hab ?_
          rw [← hac] at hbc
          exact hbc
        exact absurd this h₁
      · rw [if_neg hac]
        exact strLE_trans hab hbc

/-! ### The resolver's sort-key order is total and transitive -/

theorem dateLE_iff (a b : Nat × Nat × Nat) :
    dateLE a b = true ↔
      (a.1 < b.1 ∨ (a.1 = b.1 ∧ (a.2.1 < b.2.1 ∨ (a.2.1 = b.2.1 ∧ a.2.2 ≤ b.2.2)))) := by
  simp [dateLE]

instance folderKeyRelTotal : IsTotal ((Nat × Nat × Nat) × String) folderKeyRel := by
  constructor
  intro a b
  unfold folderKeyRel
  rw [dateLE_iff, dateLE_iff]
  omega

instance folderKeyRelTrans : IsTrans ((Nat × Nat × Nat) × String) folderKeyRel := by
  constructor
  intro a b c hab hbc
  unfold folderKeyRel at *
  rw [dateLE_iff] at hab hbc ⊢
  omega

/-! ### The count orders of the breakdown are total and transitive -/

instance countAscRelTotal : IsTotal (String × Nat) countAscRel :=
  ⟨fun a b => Nat.le_total a.2 b.2⟩

instance countAscRelTrans : IsTrans (String × Nat) countAscRel :=
  ⟨fun _ _ _ h₁ h₂ => Nat.le_trans h₁ h₂⟩

instance countDescRelTotal : IsTotal (String × Nat) countDescRel :=
  ⟨fun a b => Nat.le_total b.2 a.2⟩

instance countDescRelTrans : IsTrans (String × Nat) countDescRel :=
  ⟨fun _ _ _ h₁ h₂ => Nat.le_trans h₂ h₁⟩

/-! ### The deduplicated secondary table has unique keys, so the left
join is one row per left row -/

theorem simples_last_keys_nodup (simples : List SimplesRaw) :
    ((simples_last simples).map (fun r => r.cnpj_basico)).Nodup :=
  nodup_keys_dropDupFirst _ _

theorem length_filter_key_le_one {key : α → κ} [DecidableEq κ] {l : List α}
    (h : (l.map key).Nodup) (k : κ) :
    (l.filter (fun x => decide (key x = k))).length ≤ 1 := by
  induction l with
  | nil => simp
  | cons x xs ih =>
    simp only [List.map_cons, List.nodup_cons] at h
    by_cases hx : key x = k
    · have hnil : xs.filter (fun y => decide (key y = k)) = [] := by
        rw [List.filter_eq_nil_iff]
        intro y hy
        simp only [decide_eq_true_eq]
        intro hc
        exact h.1 (by rw [← hx] at hc; exact hc ▸ List.mem_map_of_mem key hy)
      simp [List.filter_cons, hx, hnil]
    · simpa [List.filter_cons, hx] using ih h.2

theorem mergeOne_length {right : List SimplesRow}
    (h : (right.map (fun r => r.cnpj_basico)).Nodup) (l : EstabRow) :
    (mergeOne right l).length = 1 := by
  unfold mergeOne
  by_cases he : (right.filter (fun r => decide (r.cnpj_basico = l.cnpj_basico))).isEmpty
  · simp [he]
  · rw [if_neg he, List.length_map]
    have h1 : (right.filter (fun r => decide (r.cnpj_basico = l.cnpj_basico))).length ≤ 1 :=
      length_filter_key_le_one h l.cnpj_basico
    have h0 : (right.filter (fun r => decide (r.cnpj_basico = l.cnpj_basico))).length ≠ 0 := by
      intro hc
      exact he (by simpa [List.isEmpty_iff, List.length_eq_zero] using hc)
    omega

theorem mergeLeft_length {right : List SimplesRow}
    (h : (right.map (fun r => r.cnpj_basico)).Nodup) (left : List EstabRow) :
    (mergeLeft left right).length = left.length := by
  induction left with
  | nil => rfl
  | cons l ls ih =>
    unfold mergeLeft at *
    rw [List.flatMap_cons, List.length_append, ih, mergeOne_length h]
    simp [Nat.add_comm]

/-! ### Idempotence machinery for `simples_last` -/

theorem mem_map_assign_of_mem_simples_last {simples : List SimplesRaw} {r : SimplesRow}
    (h : r ∈ simples_last simples) : r ∈ simples.map assignIsMei :=
  (List.mem_insertionSort simplesRel).mp (mem_of_mem_dropDupFirstAux h)

theorem simples_last_roundtrip {simples : List SimplesRaw} {r : SimplesRow}
    (h : r ∈ simples_last simples) : assignIsMei (selectSimplesCols r) = r := by
  rcases List.mem_map.mp (mem_map_assign_of_mem_simples_last h) with ⟨a, _, rfl⟩
  rfl

theorem simples_last_sorted (simples : List SimplesRaw) :
    List.Sorted simplesRel (simples_last simples) :=
  List.Pairwise.sublist (dropDupFirst_sublist _ _)
    (List.sorted_insertionSort simplesRel (simples.map assignIsMei))

/-! ### Scenario data of spec §8 -/

/-- The two-establishment primary table of the §8 scenario. -/
def scenarioEstab : List EstabRaw :=
  [⟨"12345678", "0001", "90", "2311309", "CE", some "4781400"⟩,
   ⟨"87654321", "0001", "11", "2311309", "CE", none⟩]

/-- The two-row secondary table of the §8 scenario: one flag-true row
dated 2024-01 and one flag-false row dated 2024-06 for the same base. -/
def scenarioSimples : List SimplesRaw :=
  [⟨"12345678", "S", "2024-01", ""⟩, ⟨"12345678", "N", "2024-06", ""⟩]

/-! ### Claims C1-C3 -/

/-- C1: the join is total over the filtered primary table: the joined
output has exactly as many rows as the filtered primary input, every
joined row's classification flag is exactly `true` or `false` (never
absent), and a row whose base identifier matches no deduplicated
secondary record is classified `false`. -/
theorem join_total_over_primary (estab : List EstabRaw) (simples : List SimplesRaw)
    (municipio_ibge uf : String) :
    (outTable estab simples municipio_ibge uf).length
        = (estab_mun estab municipio_ibge uf).length ∧
    ∀ r ∈ outTable estab simples municipio_ibge uf,
      (r.is_mei = true ∨ r.is_mei = false) ∧
      ((∀ sr ∈ simples_last simples, sr.cnpj_basico ≠ r.e.cnpj_basico) → r.is_mei = false) := by
  constructor
  · unfold outTable joinClassify
    rw [List.length_map]
    exact mergeLeft_length (simples_last_keys_nodup simples) _
  · intro r hr
    constructor
    · rcases Bool.eq_false_or_eq_true r.is_mei with h | h
      · exact Or.inl h
      · exact Or.inr h
    · intro hnone
      unfold outTable joinClassify mergeLeft at hr
      rcases List.mem_map.mp hr with ⟨m, hm, rfl⟩
      rcases List.mem_flatMap.mp hm with ⟨l, _, hml⟩
      unfold mergeOne at hml
      by_cases he :
          ((simples_last simples).filter (fun x => decide (x.cnpj_basico = l.cnpj_basico))).isEmpty
      · rw [if_pos he] at hml
        rcases (by simpa using hml : m = MergedRow.mk l none none none) with rfl
        rfl
      · rw [if_neg he] at hml
        rcases List.mem_map.mp hml with ⟨sr, hsr, rfl⟩
        have hsr' := List.mem_filter.mp hsr
        exact absurd (by simpa using hsr'.2) (hnone sr hsr'.1)

/-- C1 witness: on the §8 scenario data, the joined table has as many
rows as the filtered primary table, and the establishment with no
secondary match is classified `false`. -/
theorem join_total_over_primary_witness :
    (outTable scenarioEstab scenarioSimples "2311309" "CE").length
        = (estab_mun scenarioEstab "2311309" "CE").length ∧
    (OutRow.mk ⟨"87654321", "0001", "11", "87654321000111", "2311309", "CE", none⟩
        false none none).is_mei = false :=
  ⟨(join_total_over_primary scenarioEstab scenarioSimples "2311309" "CE").1,
    ((join_total_over_primary scenarioEstab scenarioSimples "2311309" "CE").2
      (OutRow.mk ⟨"87654321", "0001", "11", "87654321000111", "2311309", "CE", none⟩
        false none none) (by decide)).2 (by decide)⟩

/-- C2: on the §8 scenario, deduplication keeps the flag-true row dated
2024-01 (the flag key dominates the date key), the joined classification
is `true` for the matched establishment and `false` for the other, and
the summary is total=2, classified-true=1, ratio=0.5. -/
theorem dedup_scenario_flag_dominates_date :
    simples_last scenarioSimples = [⟨"12345678", "S", "2024-01", "", true⟩] ∧
    (outTable scenarioEstab scenarioSimples "2311309" "CE").map
        (fun r => (r.e.cnpj_completo, r.is_mei))
      = [("12345678000190", true), ("87654321000111", false)] ∧
    resumo (outTable scenarioEstab scenarioSimples "2311309" "CE")
      = [⟨"2311309", "CE", 2, 1, 1/2⟩] := by
  refine ⟨by decide, by decide, ?_⟩
  have hk : List.insertionSort groupKeyRel
      (dropDupFirst id ((outTable scenarioEstab scenarioSimples "2311309" "CE").map
        (fun r => (r.e.municipio, r.e.uf)))) = [("2311309", "CE")] := by decide
  have hn : nuniqueEstab (outTable scenarioEstab scenarioSimples "2311309" "CE")
      ("2311309", "CE") = 2 := by decide
  have hm : sumIsMei (outTable scenarioEstab scenarioSimples "2311309" "CE")
      ("2311309", "CE") = 1 := by decide
  unfold resumo
  rw [hk]
  simp only [List.map_cons, List.map_nil]
  unfold resumoRow
  rw [hn, hm]
  simp only [ResumoRow.mk.injEq]
  norm_num [pyRound4, pyRoundInt]

/-- C3: deduplication of the secondary table is idempotent (re-running
the normalize/sort/drop-duplicates pipeline on its own output returns it
unchanged) and its output has at most one row per base identifier. -/
theorem simples_last_idempotent_unique_keys (simples : List SimplesRaw) :
    simples_last ((simples_last simples).map selectSimplesCols) = simples_last simples ∧
    ((simples_last simples).map (fun r => r.cnpj_basico)).Nodup := by
  refine ⟨?_, simples_last_keys_nodup simples⟩
  have hmap : (((simples_last simples).map selectSimplesCols).map assignIsMei)
      = simples_last simples :=
    calc ((simples_last simples).map selectSimplesCols).map assignIsMei
        = (simples_last simples).map (assignIsMei ∘ selectSimplesCols) :=
          List.map_map _ _ _
      _ = (simples_last simples).map id :=
          List.map_congr_left (fun r hr => simples_last_roundtrip hr)
      _ = simples_last simples := List.map_id _
  show dropDupFirst (fun r => r.cnpj_basico)
      (List.insertionSort simplesRel
        (((simples_last simples).map selectSimplesCols).map assignIsMei))
    = simples_last simples
  rw [hmap, List.Sorted.insertionSort_eq (simples_last_sorted simples)]
  exact dropDupFirst_eq_self (simples_last_keys_nodup simples)

/-! ### Claim C7: filtering commutes with the join -/

theorem fillna_mergeOne_e {right : List SimplesRow} {l : EstabRow} {x : OutRow}
    (hx : x ∈ (mergeOne right l).map fillnaRow) : x.e = l := by
  rcases List.mem_map.mp hx with ⟨m, hm, rfl⟩
  unfold mergeOne at hm
  by_cases he : (right.filter (fun r => decide (r.cnpj_basico = l.cnpj_basico))).isEmpty
  · rw [if_pos he] at hm
    rcases (by simpa using hm : m = MergedRow.mk l none none none) with rfl
    rfl
  · rw [if_neg he] at hm
    rcases List.mem_map.mp hm with ⟨sr, _, rfl⟩
    rfl

theorem mergeLeft_filter_comm (left : List EstabRow) (right : List SimplesRow)
    (p : EstabRow → Bool) :
    (mergeLeft (left.filter p) right).map fillnaRow
      = ((mergeLeft left right).map fillnaRow).filter (fun r => p r.e) := by
  induction left with
  | nil => rfl
  | cons l ls ih =>
    unfold mergeLeft at *
    rw [List.flatMap_cons, List.map_append, List.filter_append]
    by_cases hp : p l
    · rw [List.filter_cons_of_pos (by simpa using hp), List.flatMap_cons, List.map_append, ih]
      congr 1
      refine (List.filter_eq_self.mpr ?_).symm
      intro x hx
      rw [fillna_mergeOne_e hx]
      simpa using hp
    · rw [List.filter_cons_of_neg (by simpa using hp), ih]
      have hnil : ((mergeOne right l).map fillnaRow).filter (fun r => p r.e) = [] := by
        rw [List.filter_eq_nil_iff]
        intro x hx
        rw [fillna_mergeOne_e hx]
        simpa using hp
      rw [hnil, List.nil_append]

/-- C7: filtering the primary table to the target municipality commutes
with the classification join: joining the filtered primary table with the
full deduplicated secondary table equals joining first and filtering the
joined rows afterward (the classification lookup uses the full secondary
table on both sides). -/
theorem filter_join_commute (estab : List EstabRaw) (simples : List SimplesRaw)
    (municipio_ibge uf : String) :
    joinClassify (estab_mun estab municipio_ibge uf) simples
      = (joinClassify (estab.map prepareEstab) simples).filter
          (fun r => mask municipio_ibge uf r.e) := by
  unfold estab_mun joinClassify
  exact mergeLeft_filter_comm (estab.map prepareEstab) (simples_last simples)
    (mask municipio_ibge uf)

/-! ### Claim C4: the summary ratio invariant -/

theorem pyRoundInt_bounds {lo hi : ℤ} {x : ℚ} (hl : (lo : ℚ) ≤ x) (hh : x ≤ (hi : ℚ)) :
    lo ≤ pyRoundInt x ∧ pyRoundInt x ≤ hi := by
  have hflo : lo ≤ ⌊x⌋ := Int.le_floor.mpr hl
  have hfhi : ⌊x⌋ ≤ hi := by exact_mod_cast le_trans (Int.floor_le x) hh
  simp only [pyRoundInt]
  split_ifs with h1 h2 h3
  · exact ⟨hflo, hfhi⟩
  · have hx2 : (⌊x⌋ : ℚ) + 1/2 < x := by linarith
    have hlt : (⌊x⌋ : ℚ) < (hi : ℚ) := by linarith [hh]
    have hfh : ⌊x⌋ < hi := by exact_mod_cast hlt
    omega
  · exact ⟨hflo, hfhi⟩
  · have heq : x - (⌊x⌋ : ℚ) = 1/2 := le_antisymm (not_lt.mp h2) (not_lt.mp h1)
    have hlt : (⌊x⌋ : ℚ) < (hi : ℚ) := by linarith [hh]
    have hfh : ⌊x⌋ < hi := by exact_mod_cast hlt
    omega

theorem pyRound4_bounds {q : ℚ} (h0 : 0 ≤ q) (h1 : q ≤ 1) :
    0 ≤ pyRound4 q ∧ pyRound4 q ≤ 1 := by
  have hb := @pyRoundInt_bounds 0 10000 (q * 10000)
    (by push_cast; nlinarith) (by push_cast; nlinarith)
  unfold pyRound4
  constructor
  · exact div_nonneg (by exact_mod_cast hb.1) (by norm_num)
  · rw [div_le_one (by norm_num)]
    exact_mod_cast hb.2

theorem headI_mem_of_ne_nil [Inhabited α] {l : List α} (h : l ≠ []) : l.headI ∈ l := by
  cases l with
  | nil => exact absurd rfl h
  | cons a t => exact List.mem_cons_self a t

/-- C4 amended: for every joined table whose canonical business
identifiers are pairwise distinct (the uniqueness the data model assumes
for extracted establishment records), every SummaryRow satisfies
classified-true ≤ total and 0 ≤ ratio ≤ 1.  Without that distinctness
hypothesis the invariant fails, because the total counts distinct
canonical identifiers while the classified-true count sums the flag over
rows (see the counterexample). -/
theorem summary_ratio_invariant_amended (out : List OutRow)
    (h : (out.map (fun r => r.e.cnpj_completo)).Nodup) :
    ∀ row ∈ resumo out,
      row.total_mei ≤ row.total_estab ∧ 0 ≤ row.perc_mei ∧ row.perc_mei ≤ 1 := by
  intro row hrow
  unfold resumo at hrow
  rcases List.mem_map.mp hrow with ⟨k, _, rfl⟩
  have hng : ((groupRows out k).map (fun r => r.e.cnpj_completo)).Nodup :=
    List.Nodup.sublist (List.Sublist.map _ (List.filter_sublist out)) h
  have hn : nuniqueEstab out k = (groupRows out k).length := by
    unfold nuniqueEstab
    rw [dropDupFirst_eq_self (by simpa using hng), List.length_map]
  have hm : sumIsMei out k ≤ (groupRows out k).length := List.countP_le_length _
  constructor
  · show sumIsMei out k ≤ nuniqueEstab out k
    rw [hn]
    exact hm
  · show 0 ≤ pyRound4 ((sumIsMei out k : ℚ) / (nuniqueEstab out k : ℚ)) ∧
        pyRound4 ((sumIsMei out k : ℚ) / (nuniqueEstab out k : ℚ)) ≤ 1
    by_cases hz : nuniqueEstab out k = 0
    · have hm0 : sumIsMei out k = 0 := by omega
      rw [hz, hm0]
      norm_num [pyRound4, pyRoundInt]
    · have hpos : 0 < (nuniqueEstab out k : ℚ) := by
        exact_mod_cast Nat.pos_of_ne_zero hz
      have hq0 : 0 ≤ (sumIsMei out k : ℚ) / (nuniqueEstab out k : ℚ) :=
        div_nonneg (by positivity) hpos.le
      have hq1 : (sumIsMei out k : ℚ) / (nuniqueEstab out k : ℚ) ≤ 1 := by
        rw [div_le_one hpos]
        exact_mod_cast hn ▸ hm
      exact pyRound4_bounds hq0 hq1

/-- Primary table with the same establishment record twice: duplicate
canonical identifiers reach the aggregator because nothing deduplicates
the extracted primary rows. -/
def dupEstab : List EstabRaw :=
  [⟨"12345678", "0001", "90", "2311309", "CE", some "4781400"⟩,
   ⟨"12345678", "0001", "90", "2311309", "CE", some "4781400"⟩]

/-- Secondary table matching the duplicated base identifier with a
flag-true record. -/
def dupSimples : List SimplesRaw := [⟨"12345678", "S", "2024-01", ""⟩]

/-- C4 counterexample: on a joined table with a duplicated canonical
identifier, the produced SummaryRow has classified-true 2 over total 1,
so the claimed invariant fails as stated. -/
theorem summary_ratio_counterexample :
    ¬ ∀ row ∈ resumo (outTable dupEstab dupSimples "2311309" "CE"),
        row.total_mei ≤ row.total_estab ∧ 0 ≤ row.perc_mei ∧ row.perc_mei ≤ 1 := by
  intro hall
  have hm : (resumo (outTable dupEstab dupSimples "2311309" "CE")).map
      (fun row => (row.total_estab, row.total_mei)) = [(1, 2)] := by decide
  rcases hL : resumo (outTable dupEstab dupSimples "2311309" "CE") with _ | ⟨row, rest⟩
  · rw [hL] at hm
    simp at hm
  · rw [hL] at hm
    simp only [List.map_cons, List.cons.injEq, Prod.mk.injEq] at hm
    obtain ⟨⟨h1, h2⟩, -⟩ := hm
    have hle := (hall row (by rw [hL]; exact List.mem_cons_self _ _)).1
    omega

/-- C4 witness: on the §8 scenario table (distinct identifiers), the
amended invariant instantiates to the concrete summary row. -/
theorem summary_ratio_invariant_amended_witness :
    (resumo (outTable scenarioEstab scenarioSimples "2311309" "CE")).headI.total_mei
        ≤ (resumo (outTable scenarioEstab scenarioSimples "2311309" "CE")).headI.total_estab ∧
    0 ≤ (resumo (outTable scenarioEstab scenarioSimples "2311309" "CE")).headI.perc_mei ∧
    (resumo (outTable scenarioEstab scenarioSimples "2311309" "CE")).headI.perc_mei ≤ 1 :=
  summary_ratio_invariant_amended (outTable scenarioEstab scenarioSimples "2311309" "CE")
    (by decide) _
    (headI_mem_of_ne_nil (by
      intro hc
      have : (resumo (outTable scenarioEstab scenarioSimples "2311309" "CE")).map
          (fun row => (row.total_estab, row.total_mei)) = [(2, 1)] := by decide
      rw [hc] at this
      simp at this))

/-! ### Claims C5 and C9: the catalog resolver -/

theorem rel_getLast_of_pairwise {R : α → α → Prop} :
    ∀ {l : List α} {x a : α}, l.Pairwise R → x ∈ l → l.getLast? = some a → x = a ∨ R x a := by
  intro l
  induction l with
  | nil => intro x a _ hx; simp at hx
  | cons b t ih =>
    intro x a hp hx hlast
    cases t with
    | nil =>
      have hxb : x = b := by simpa using hx
      have hab : b = a := by simpa using hlast
      exact Or.inl (hxb.trans hab)
    | cons c t' =>
      rw [List.getLast?_cons_cons] at hlast
      have hamem : a ∈ c :: t' := by
        rcases List.mem_getLast?_eq_getLast
            (show a ∈ (c :: t').getLast? from by rw [hlast]; rfl) with ⟨hne, heq⟩
        rw [heq]
        exact List.getLast_mem hne
      rcases List.mem_cons.mp hx with rfl | hx'
      · exact Or.inr ((List.pairwise_cons.mp hp).1 a hamem)
      · exact ih (List.pairwise_cons.mp hp).2 hx' hlast

theorem keyFolders_of_all_some {l : List String}
    (h : ∀ s ∈ l, (dtparseMonthDir s).isSome) :
    ∃ keyed, keyFolders l = some keyed ∧ keyed.map Prod.snd = l ∧
      ∀ p ∈ keyed, dtparseMonthDir p.2 = some p.1 := by
  induction l with
  | nil => exact ⟨[], rfl, rfl, by simp⟩
  | cons s rest ih =>
    have hs := h s (List.mem_cons_self _ _)
    rcases Option.isSome_iff_exists.mp hs with ⟨d, hd⟩
    rcases ih (fun t ht => h t (List.mem_cons_of_mem _ ht)) with ⟨keyed, hk, hsnd, hall⟩
    refine ⟨(d, s) :: keyed, ?_, by simp [hsnd], ?_⟩
    · simp [keyFolders, hd, hk]
    · intro p hp
      rcases List.mem_cons.mp hp with rfl | hp'
      · exact hd
      · exact hall p hp'

/-- Calendar validity of a matched label: its sort key parses to the
first day of a real month. -/
def validYM (s : String) : Bool :=
  match dtparseMonthDir s with
  | some (_, m, d) => decide (1 ≤ m ∧ m ≤ 12 ∧ d = 1)
  | none => false

theorem validYM_spec {s : String} (h : validYM s = true) :
    ∃ y m, 1 ≤ m ∧ m ≤ 12 ∧ dtparseMonthDir s = some (y, m, 1) := by
  unfold validYM at h
  rcases hd : dtparseMonthDir s with _ | ⟨y, m, d⟩
  · rw [hd] at h
    exact absurd h (by simp)
  · rw [hd] at h
    simp only [decide_eq_true_eq] at h
    exact ⟨y, m, h.1, h.2.1, by rw [h.2.2]⟩

/-- C5 amended: on a catalog listing with at least one pattern-matching
entry, all of whose pattern-matching entries are calendar-valid (month
01-12 and year at least 0001; dateutil raises on other matched labels,
aborting the resolver), the resolver returns a listed label whose parsed
year-month is maximal: it never returns a label when a chronologically
later one is also listed. -/
theorem latest_folder_monotonic_amended (hrefs : List String)
    (hvalid : ∀ s ∈ hrefs.filterMap matchMonthDir, validYM s = true)
    (hne : hrefs.filterMap matchMonthDir ≠ []) :
    ∃ p yp mp, rfb_latest_folder hrefs = .ok p ∧
      p ∈ hrefs.filterMap matchMonthDir ∧ dtparseMonthDir p = some (yp, mp, 1) ∧
      ∀ q ∈ hrefs.filterMap matchMonthDir, ∀ yq mq,
        dtparseMonthDir q = some (yq, mq, 1) → (yq < yp ∨ (yq = yp ∧ mq ≤ mp)) := by
  have hsome : ∀ s ∈ hrefs.filterMap matchMonthDir, (dtparseMonthDir s).isSome := by
    intro s hs
    rcases validYM_spec (hvalid s hs) with ⟨y, m, _, _, hd⟩
    simp [hd]
  rcases keyFolders_of_all_some hsome with ⟨keyed, hk, hsnd, hall⟩
  have hkne : keyed ≠ [] := by
    intro hc
    rw [hc] at hsnd
    exact hne hsnd.symm
  have hsne : List.insertionSort folderKeyRel keyed ≠ [] := by
    intro hc
    have hp := List.perm_insertionSort folderKeyRel keyed
    rw [hc] at hp
    exact hkne (List.perm_nil.mp hp.symm)
  have hlast := List.getLast?_eq_getLast (List.insertionSort folderKeyRel keyed) hsne
  have hlmem : (List.insertionSort folderKeyRel keyed).getLast hsne ∈ keyed :=
    (List.mem_insertionSort folderKeyRel).mp (List.getLast_mem hsne)
  have hres : rfb_latest_folder hrefs
      = .ok ((List.insertionSort folderKeyRel keyed).getLast hsne).2 := by
    simp only [rfb_latest_folder, hk, hlast]
  have hpmem : ((List.insertionSort folderKeyRel keyed).getLast hsne).2
      ∈ hrefs.filterMap matchMonthDir := by
    rw [← hsnd]
    exact List.mem_map_of_mem Prod.snd hlmem
  rcases validYM_spec (hvalid _ hpmem) with ⟨yp, mp, hmp1, hmp2, hdp⟩
  have hkey : ((List.insertionSort folderKeyRel keyed).getLast hsne).1 = (yp, mp, 1) := by
    have := hall _ hlmem
    rw [this] at hdp
    exact Option.some.inj hdp
  refine ⟨_, yp, mp, hres, hpmem, hdp, ?_⟩
  intro q hq yq mq hdq
  rcases List.mem_map.mp (hsnd ▸ hq) with ⟨kq, hkq, rfl⟩
  have hkq1 : kq.1 = (yq, mq, 1) := by
    have := hall _ hkq
    rw [this] at hdq
    exact Option.some.inj hdq
  have hsorted : (List.insertionSort folderKeyRel keyed).Pairwise folderKeyRel :=
    List.sorted_insertionSort folderKeyRel keyed
  rcases rel_getLast_of_pairwise hsorted
      ((List.mem_insertionSort folderKeyRel).mpr hkq) hlast with heq | hrel
  · rw [heq, hkey] at hkq1
    simp only [Prod.mk.injEq] at hkq1
    omega
  · have hrel' : dateLE kq.1 ((List.insertionSort folderKeyRel keyed).getLast hsne).1 = true :=
      hrel
    rw [hkq1, hkey, dateLE_iff] at hrel'
    simp only at hrel'
    omega

/-- C5 counterexample: the listing below contains two valid ordered
period labels 2024-01 < 2024-02, yet the resolver returns no label at
all: the entry 2024-99 also matches the strict pattern and its dateutil
sort key raises, so the claim that the resolver returns the
chronologically maximal label present fails as stated. -/
theorem latest_folder_counterexample :
    matchMonthDir "2024-01/" = some "2024-01" ∧
    matchMonthDir "2024-02/" = some "2024-02" ∧
    matchMonthDir "2024-99/" = some "2024-99" ∧
    strLE "2024-01" "2024-02" = true ∧ "2024-01" ≠ "2024-02" ∧
    rfb_latest_folder ["2024-01/", "2024-02/", "2024-99/"] = .error .parseFailure :=
  ⟨rfl, rfl, rfl, rfl, by decide, rfl⟩

/-- C5 witness: on a two-entry calendar-valid listing the amended
theorem yields the chronological maximum. -/
theorem latest_folder_monotonic_amended_witness :
    ∃ p yp mp, rfb_latest_folder ["2023-12/", "2024-01/"] = .ok p ∧
      p ∈ (["2023-12/", "2024-01/"] : List String).filterMap matchMonthDir ∧
      dtparseMonthDir p = some (yp, mp, 1) ∧
      ∀ q ∈ (["2023-12/", "2024-01/"] : List String).filterMap matchMonthDir, ∀ yq mq,
        dtparseMonthDir q = some (yq, mq, 1) → (yq < yp ∨ (yq = yp ∧ mq ≤ mp)) :=
  latest_folder_monotonic_amended ["2023-12/", "2024-01/"] (by decide) (by decide)

/-- C9: when no hyperlink target matches the strict YYYY-MM pattern the
resolver fails with its not-found error and returns no period label. -/
theorem resolver_no_match_not_found (hrefs : List String)
    (h : ∀ href ∈ hrefs, matchMonthDir href = none) :
    rfb_latest_folder hrefs = .error .notFound := by
  have hnil : hrefs.filterMap matchMonthDir = [] := by
    simp only [List.filterMap_eq_nil_iff]
    exact h
  simp only [rfb_latest_folder, hnil, keyFolders]
  rfl

/-- C9 witness: a listing of non-matching entries yields the not-found
error. -/
theorem resolver_no_match_not_found_witness :
    rfb_latest_folder ["index.html", "../", "LAYOUT.pdf"] = .error .notFound :=
  resolver_no_match_not_found ["index.html", "../", "LAYOUT.pdf"] (by decide)

/-! ### Claim C6: the top-N breakdown -/

/-- C8: for an archive in which zero members match the configured
case-insensitive filename stems, the extractor fails with the extraction
error naming the attempted stems, and the whole pipeline aborts with that
error, producing no SummaryRow. -/
theorem extraction_failure_aborts (estabZip : List (ZipEntry EstabRaw))
    (simplesZip : List (ZipEntry SimplesRaw)) (municipio_ibge uf : String)
    (h : ∀ m ∈ estabZip, ¬(isCsvMember m = true ∧ matchesWanted ["estabelec"] m = true)) :
    concat_csvs_from_zip estabZip ["estabelec"]
        = .error (.extractionFailure ["estabelec"]) ∧
    runPipeline estabZip simplesZip municipio_ibge uf
        = .error (.extractionFailure ["estabelec"]) := by
  have hpicked : (estabZip.filter isCsvMember).filter (matchesWanted ["estabelec"]) = [] := by
    rw [List.filter_eq_nil_iff]
    intro m hm
    have hm' := List.mem_filter.mp hm
    intro hw
    exact h m hm'.1 ⟨hm'.2, hw⟩
  have hc : concat_csvs_from_zip estabZip ["estabelec"]
      = .error (.extractionFailure ["estabelec"]) := by
    simp only [concat_csvs_from_zip, hpicked]
    rfl
  refine ⟨hc, ?_⟩
  simp only [runPipeline, hc]

/-- C8 witness: an archive whose only member matches no stem makes the
extractor and the pipeline fail with the stem-naming error. -/
theorem extraction_failure_aborts_witness :
    concat_csvs_from_zip ([⟨"LEIAME.txt", []⟩] : List (ZipEntry EstabRaw)) ["estabelec"]
        = .error (.extractionFailure ["estabelec"]) ∧
    runPipeline [⟨"LEIAME.txt", []⟩] [⟨"simples.csv", []⟩] "2311309" "CE"
        = .error (.extractionFailure ["estabelec"]) :=
  extraction_failure_aborts [⟨"LEIAME.txt", []⟩] [⟨"simples.csv", []⟩] "2311309" "CE"
    (by decide)

/-- C10: the extractor only ever reads members whose filename ends in
`.csv` case-insensitively — every picked member passes that test — and an
archive none of whose members passes it (for example members matching a
stem but lacking the extension) triggers the zero-members-matched
extraction failure. -/
theorem extractor_reads_only_csv (z : List (ZipEntry ρ)) (wanted_stems : List String) :
    (∀ m ∈ (z.filter isCsvMember).filter (matchesWanted wanted_stems),
        strEndsWith (strLower m.filename) ".csv" = true) ∧
    ((∀ m ∈ z, isCsvMember m = false) →
      concat_csvs_from_zip z wanted_stems = .error (.extractionFailure wanted_stems)) := by
  constructor
  · intro m hm
    exact (List.mem_filter.mp (List.mem_filter.mp hm).1).2
  · intro h
    have hnil : z.filter isCsvMember = [] := by
      rw [List.filter_eq_nil_iff]
      intro m hm
      simp [h m hm]
    simp only [concat_csvs_from_zip, hnil]
    rfl

/-- C10 witness: a member whose base name matches the stem but lacks the
`.csv` extension is ignored, so the archive fails extraction. -/
theorem extractor_reads_only_csv_witness :
    concat_csvs_from_zip ([⟨"estabelecimentos0", []⟩] : List (ZipEntry EstabRaw)) ["estabelec"]
        = .error (.extractionFailure ["estabelec"]) :=
  (extractor_reads_only_csv [⟨"estabelecimentos0", []⟩] ["estabelec"]).2 (by decide)

end MeiQuixera
